import Mathlib

/-!
Verification of the `kvs` key-value store facade (src/kvs.go): a thin typed
wrapper over an embedded transactional engine (boltdb). The bucket contents
are embedded as an association list kept in strictly ascending byte-
lexicographic key order, the order in which the engine stores and iterates
entries; the engine's cursor seek, create-or-replace put and cursor delete
are modelled on that list, and the facade's `Put`, `Get`, `Delete`, `Open`
and `Close` are translated from src/kvs.go on top of them.
-/

namespace Kvs

/-- Keys are byte strings: Go converts the key string to a byte slice
(`[]byte(key)`, src/kvs.go line 55) and compares keys byte by byte
(`string(k) != key`, lines 65 and 81). -/
abbrev Key := List Nat

/-- Stored values are opaque gob-encoded byte sequences. -/
abbrev Bytes := List Nat

/-- Byte-lexicographic strict order on keys: the order in which the engine
keeps the entries of a bucket (spec section 3: the container is a sorted
structure maintained internally by the engine). -/
def ltKey : Key → Key → Bool
  | [], [] => false
  | [], _ :: _ => true
  | _ :: _, [] => false
  | a :: as, b :: bs => if a < b then true else if b < a then false else ltKey as bs

/-- The contents of the fixed "kvs" bucket: entries in ascending key order. -/
abbrev Store := List (Key × Bytes)

/-- The engine keeps bucket entries strictly sorted by key; this is the
bucket invariant every operation preserves. -/
def Sorted (s : Store) : Prop :=
  List.Pairwise (fun a b => ltKey a.1 b.1 = true) s

instance (s : Store) : Decidable (Sorted s) :=
  inferInstanceAs (Decidable (List.Pairwise _ s))

/-- Every key stored in the bucket is non-empty (spec section 3: an entry's
key is a non-empty byte sequence; the engine rejects empty keys). -/
def NonEmptyKeys (s : Store) : Prop := ∀ e ∈ s, e.1 ≠ []

instance (s : Store) : Decidable (NonEmptyKeys s) :=
  inferInstanceAs (Decidable (∀ e ∈ s, e.1 ≠ []))

/-- Modelled from the spec: the engine's cursor seek primitive used on src
lines 65 and 81. `Cursor.Seek(k)` moves the cursor to the first entry whose
key is at or after `k` in sorted order and returns it, or nil past the end
(spec section 4: a sorted-order lookup). -/
def seek (k : Key) : Store → Option (Key × Bytes)
  | [] => none
  | e :: rest => if ltKey e.1 k then seek k rest else some e

/-- Modelled from the spec: the engine's create-or-replace write of a single
entry, keeping the bucket sorted (spec section 4: a single read-write
transaction that creates-or-replaces the entry for the key). -/
def insertSorted (k : Key) (b : Bytes) : Store → Store
  | [] => [(k, b)]
  | e :: rest =>
    if ltKey e.1 k then e :: insertSorted k b rest
    else if e.1 = k then (k, b) :: rest
    else (k, b) :: e :: rest

/-- Modelled from the spec: removal of the entry under the cursor
(`Cursor.Delete`, src line 84). In `Delete` the cursor stands on the first
entry whose key is at or after the argument and that entry's key was checked
equal to it, so this erases the first entry carrying that key. -/
def eraseKey (k : Key) : Store → Store
  | [] => []
  | e :: rest => if e.1 = k then rest else e :: eraseKey k rest

/-- Error outcomes of the facade and of the collaborators it delegates to. -/
inductive Err
  /-- Sentinel `ErrNotFound` (src/kvs.go line 17). -/
  | notFound
  /-- Sentinel `ErrBadValue` (src/kvs.go line 18). -/
  | badValue
  /-- Engine rejection of an empty key on a bucket put (bolt
  `ErrKeyRequired`; spec section 3: entry keys are non-empty). -/
  | keyRequired
  /-- Gob encoding failure, propagated unwrapped (src line 51). -/
  | encodeFail
  /-- Gob decoding failure, propagated unwrapped (src line 71). -/
  | decodeFail
  /-- Operating on a missing bucket (`tx.Bucket` returned nil); never
  reachable through a store produced by `Open`. -/
  | bucketMissing
  deriving DecidableEq

/-- Modelled from the spec: the gob codec for one value type, an external
collaborator of the facade (spec section 7: serialization failures are
propagated unwrapped; spec section 8: a put value reads back decode-equal).
`enc` may fail, since gob rejects some values; `roundtrip` is the codec's
guarantee that bytes it produced decode back to the value it encoded. -/
structure GobCodec (α : Type) where
  enc : α → Option Bytes
  dec : Bytes → Option α
  roundtrip : ∀ v b, enc v = some b → dec b = some v

variable {α : Type}

/-- Modelled from the spec: the engine-level `tx.Bucket(...).Put` called on
src line 55. It rejects the empty key (spec section 3), otherwise
creates-or-replaces the entry in sorted position. -/
def bucketPut (k : Key) (b : Bytes) (s : Store) : Except Err Store :=
  if k = [] then .error .keyRequired else .ok (insertSorted k b s)

/-- `KVStore.Put` (src/kvs.go lines 46-57) acting on the bucket contents: a
nil value (`none`) is rejected with `ErrBadValue` before anything else
happens, then the value is gob-encoded, then one read-write transaction
create-or-replaces the entry. The returned store is the bucket after the
call: on every error path the transaction did not commit (or never opened)
and the contents are unchanged. -/
def Put (c : GobCodec α) (s : Store) (k : Key) (v : Option α) : Store × Option Err :=
  match v with
  | none => (s, some .badValue)
  | some v0 =>
    match c.enc v0 with
    | none => (s, some .encodeFail)
    | some b =>
      match bucketPut k b s with
      | .error e => (s, some e)
      | .ok s1 => (s1, none)

/-- `KVStore.Get` (src/kvs.go lines 62-74): seek the cursor to the first key
at or after `k`; if there is none or its key differs from `k`, fail with
`ErrNotFound`; if the destination is omitted (`dst = false`, Go
`value == nil`), succeed without decoding; otherwise gob-decode the stored
bytes, `.ok (some v)` modelling a successful decode into the destination.
The transaction is read-only, so no store is returned: nothing changes. -/
def Get (c : GobCodec α) (s : Store) (k : Key) (dst : Bool) : Except Err (Option α) :=
  match seek k s with
  | none => .error .notFound
  | some (k1, b) =>
    if k1 = k then
      if dst then
        match c.dec b with
        | some v => .ok (some v)
        | none => .error .decodeFail
      else .ok none
    else .error .notFound

/-- `KVStore.Delete` (src/kvs.go lines 78-87): seek the cursor to the first
key at or after `k`; if there is none or its key differs, fail with
`ErrNotFound`; otherwise delete the entry under the cursor. The returned
store is the bucket after the call. -/
def Delete (s : Store) (k : Key) : Store × Option Err :=
  match seek k s with
  | none => (s, some .notFound)
  | some (k1, _) =>
    if k1 = k then (eraseKey k1 s, none)
    else (s, some .notFound)

/-- The seek-then-compare pattern shared by `Get` and `Delete` (src lines
65-66 and 81-82): the entry the cursor lands on, kept only if its key
matches the argument exactly. -/
def seekLookup (k : Key) (s : Store) : Option (Key × Bytes) :=
  match seek k s with
  | none => none
  | some e => if e.1 = k then some e else none

/-- The exact-match lookup primitive the seek-then-compare pattern stands in
for: the first entry whose key equals `k`. -/
def exactLookup (k : Key) (s : Store) : Option (Key × Bytes) :=
  s.find? (fun e => e.1 == k)

/-- The fixed bucket name `"kvs"` (src/kvs.go line 19) as bytes. -/
def bucketName : List Nat := [107, 118, 115]

/-- The backing file's contents: the engine's named buckets. -/
structure DB where
  buckets : List (List Nat × Store)
  deriving DecidableEq

/-- `tx.Bucket(bucketName)`: the fixed bucket's contents, if it exists. -/
def getBucket (db : DB) : Option Store :=
  (db.buckets.find? (fun nb => nb.1 == bucketName)).map Prod.snd

/-- Modelled from the spec: `tx.CreateBucketIfNotExists(bucketName)` run by
`Open` (src lines 32-35): create the fixed bucket, empty, when absent. -/
def createBucketIfNotExists (db : DB) : DB :=
  match getBucket db with
  | some _ => db
  | none => ⟨db.buckets ++ [(bucketName, [])]⟩

/-- Commit of a read-write transaction that left the fixed bucket holding
contents `s`. -/
def setBucket (db : DB) (s : Store) : DB :=
  ⟨db.buckets.map (fun nb => if nb.1 == bucketName then (nb.1, s) else nb)⟩

/-- Whether the fixed "kvs" bucket exists in the file. -/
def hasBucket (db : DB) : Bool := (getBucket db).isSome

/-- The hardcoded lock-acquisition timeout of `Open` (src/kvs.go lines
26-28): `Timeout: 50 * time.Millisecond`. -/
def openLockTimeoutMs : Nat := 50

/-- The backing file as `Open` finds it: whether another process holds its
exclusive lock, and its contents. -/
structure FileState where
  lockedByAnother : Bool
  db : DB
  deriving DecidableEq

/-- Outcome of opening the store: an opened handle on the (possibly
initialized) file contents, or a lock-timeout failure recording how many
milliseconds were waited before giving up. -/
inductive OpenResult
  | ok (db : DB)
  | lockTimeout (waitedMs : Nat)
  deriving DecidableEq

/-- `Open` (src/kvs.go lines 25-42): the caller supplies only a path; the
engine is asked to lock the file with the hardcoded 50 ms timeout, so when
another process holds the lock the call fails once those fixed 50 ms have
elapsed, with no retry; otherwise the fixed bucket is created if absent and
a handle is returned. -/
def Open (fs : FileState) : OpenResult :=
  if fs.lockedByAnother then .lockTimeout openLockTimeoutMs
  else .ok (createBucketIfNotExists fs.db)

/-- Modelled from the spec: `Open(path, lockTimeout)` (spec sections 4.1 and
6) takes the lock-acquisition timeout as a caller-supplied input and, when
another process holds the lock, fails once that configured window elapses. -/
def openSpec (fs : FileState) (lockTimeoutMs : Nat) : OpenResult :=
  if fs.lockedByAnother then .lockTimeout lockTimeoutMs
  else .ok (createBucketIfNotExists fs.db)

/-- `Put` at the level of the whole file: the nil check and the encoding
happen before the transaction (src lines 47-53); the transaction body then
looks up the fixed bucket and writes in it (src lines 54-56). A missing
bucket (never the case after `Open`) is surfaced as an error outcome. -/
def dbPut (c : GobCodec α) (db : DB) (k : Key) (v : Option α) : DB × Option Err :=
  match v with
  | none => (db, some .badValue)
  | some v0 =>
    match c.enc v0 with
    | none => (db, some .encodeFail)
    | some b =>
      match getBucket db with
      | none => (db, some .bucketMissing)
      | some s =>
        match bucketPut k b s with
        | .error e => (db, some e)
        | .ok s1 => (setBucket db s1, none)

/-- `Get` at the level of the whole file (src lines 63-73): a read-only
transaction over the fixed bucket, leaving the file untouched. -/
def dbGet (c : GobCodec α) (db : DB) (k : Key) (dst : Bool) : Except Err (Option α) :=
  match getBucket db with
  | none => .error .bucketMissing
  | some s => Get c s k dst

/-- `Delete` at the level of the whole file (src lines 79-86). -/
def dbDelete (db : DB) (k : Key) : DB × Option Err :=
  match getBucket db with
  | none => (db, some .bucketMissing)
  | some s =>
    match Delete s k with
    | (s1, e) => (setBucket db s1, e)

/-- `Close` (src/kvs.go lines 89-91) releases the lock and the handle; it
performs no mutation of the file's buckets. -/
def Close (db : DB) : DB := db

/-! Basic facts about the byte-lexicographic key order. -/

theorem ltKey_irrefl (a : Key) : ltKey a a = false := by
  induction a with
  | nil => rfl
  | cons x xs ih => simp [ltKey, ih]

theorem ne_of_ltKey {a b : Key} (h : ltKey a b = true) : a ≠ b := by
  intro heq
  rw [heq, ltKey_irrefl] at h
  exact Bool.false_ne_true h

theorem ltKey_asymm {a b : Key} (h : ltKey a b = true) : ltKey b a = false := by
  induction a generalizing b with
  | nil =>
    cases b with
    | nil => simp [ltKey] at h
    | cons y ys => simp [ltKey]
  | cons x xs ih =>
    cases b with
    | nil => simp [ltKey] at h
    | cons y ys =>
      simp only [ltKey] at h ⊢
      rcases Nat.lt_trichotomy x y with hlt | heq | hgt
      · simp [hlt, Nat.not_lt_of_lt hlt]
      · subst heq
        simp only [lt_irrefl, if_false] at h ⊢
        exact ih h
      · simp [hgt, Nat.not_lt_of_lt hgt] at h

theorem ltKey_total {a b : Key} (hab : ltKey a b = false)
    (hba : ltKey b a = false) : a = b := by
  induction a generalizing b with
  | nil =>
    cases b with
    | nil => rfl
    | cons y ys => simp [ltKey] at hab
  | cons x xs ih =>
    cases b with
    | nil => simp [ltKey] at hba
    | cons y ys =>
      simp only [ltKey] at hab hba
      rcases Nat.lt_trichotomy x y with hlt | heq | hgt
      · simp [hlt] at hab
      · subst heq
        simp only [lt_irrefl, if_false] at hab hba
        rw [ih hab hba]
      · simp [hgt] at hba

theorem ltKey_trans {a b c : Key} (hab : ltKey a b = true)
    (hbc : ltKey b c = true) : ltKey a c = true := by
  induction a generalizing b c with
  | nil =>
    cases c with
    | nil =>
      cases b with
      | nil => exact hab
      | cons y ys => simp [ltKey] at hbc
    | cons z zs => simp [ltKey]
  | cons x xs ih =>
    cases b with
    | nil => simp [ltKey] at hab
    | cons y ys =>
      cases c with
      | nil => simp [ltKey] at hbc
      | cons z zs =>
        simp only [ltKey] at hab hbc ⊢
        rcases Nat.lt_trichotomy x y with hxy | hxy | hxy
        · rcases Nat.lt_trichotomy y z with hyz | hyz | hyz
          · simp [Nat.lt_trans hxy hyz]
          · subst hyz; simp [hxy]
          · simp [hyz, Nat.not_lt_of_lt hyz] at hbc
        · subst hxy
          rcases Nat.lt_trichotomy x z with hxz | hxz | hxz
          · simp [hxz]
          · subst hxz
            simp only [lt_irrefl, if_false] at hab hbc ⊢
            exact ih hab hbc
          · simp [hxz, Nat.not_lt_of_lt hxz] at hbc
        · simp [hxy, Nat.not_lt_of_lt hxy] at hab

/-- The empty key is the minimum: no key is strictly below it. -/
theorem ltKey_nil_right (a : Key) : ltKey a [] = false := by
  cases a <;> rfl

/-! Facts about the modelled engine primitives on sorted bucket contents. -/

theorem sorted_cons {e : Key × Bytes} {s : Store} :
    Sorted (e :: s) ↔ (∀ x ∈ s, ltKey e.1 x.1 = true) ∧ Sorted s :=
  List.pairwise_cons

theorem mem_insertSorted {x : Key × Bytes} {k : Key} {b : Bytes} {s : Store}
    (h : x ∈ insertSorted k b s) : x = (k, b) ∨ x ∈ s := by
  induction s with
  | nil => simp [insertSorted] at h; simp [h]
  | cons e rest ih =>
    by_cases hlt : ltKey e.1 k = true
    · simp only [insertSorted, if_pos hlt, List.mem_cons] at h
      rcases h with h | h
      · simp [h]
      · rcases ih h with h | h
        · exact Or.inl h
        · exact Or.inr (List.mem_cons_of_mem _ h)
    · by_cases heq : e.1 = k
      · simp only [insertSorted, if_neg hlt, if_pos heq, List.mem_cons] at h
        rcases h with h | h
        · exact Or.inl h
        · exact Or.inr (List.mem_cons_of_mem _ h)
      · simp only [insertSorted, if_neg hlt, if_neg heq, List.mem_cons] at h
        rcases h with h | h
        · exact Or.inl h
        · exact Or.inr (List.mem_cons.2 h)

theorem sorted_insertSorted {k : Key} {b : Bytes} {s : Store}
    (hs : Sorted s) : Sorted (insertSorted k b s) := by
  induction s with
  | nil =>
    simp [insertSorted, Sorted]
  | cons e rest ih =>
    rcases sorted_cons.1 hs with ⟨hall, htail⟩
    by_cases hlt : ltKey e.1 k = true
    · rw [insertSorted, if_pos hlt]
      refine sorted_cons.2 ⟨?_, ih htail⟩
      intro x hx
      rcases mem_insertSorted hx with hx | hx
      · rw [hx]; exact hlt
      · exact hall x hx
    · by_cases heq : e.1 = k
      · rw [insertSorted, if_neg hlt, if_pos heq]
        refine sorted_cons.2 ⟨?_, htail⟩
        intro x hx
        rw [← heq]
        exact hall x hx
      · rw [insertSorted, if_neg hlt, if_neg heq]
        have hke : ltKey k e.1 = true := by
          cases hke : ltKey k e.1 with
          | true => rfl
          | false =>
            exact absurd (ltKey_total (Bool.of_not_eq_true hlt) hke) heq
        refine sorted_cons.2 ⟨?_, hs⟩
        intro x hx
        rcases List.mem_cons.1 hx with hx | hx
        · rw [hx]; exact hke
        · exact ltKey_trans hke (hall x hx)

theorem eraseKey_sublist (k : Key) (s : Store) : (eraseKey k s).Sublist s := by
  induction s with
  | nil => simp [eraseKey]
  | cons e rest ih =>
    by_cases heq : e.1 = k
    · rw [eraseKey, if_pos heq]
      exact List.sublist_cons_self e rest
    · rw [eraseKey, if_neg heq]
      exact List.Sublist.cons₂ e ih

theorem sorted_eraseKey {k : Key} {s : Store} (hs : Sorted s) :
    Sorted (eraseKey k s) :=
  List.Pairwise.sublist (eraseKey_sublist k s) hs

theorem exactLookup_insertSorted_self (k : Key) (b : Bytes) (s : Store) :
    exactLookup k (insertSorted k b s) = some (k, b) := by
  induction s with
  | nil => simp [insertSorted, exactLookup]
  | cons e rest ih =>
    by_cases hlt : ltKey e.1 k = true
    · have hne : e.1 ≠ k := ne_of_ltKey hlt
      rw [insertSorted, if_pos hlt]
      unfold exactLookup at ih ⊢
      rw [List.find?_cons_of_neg _ (by simp [hne])]
      exact ih
    · by_cases heq : e.1 = k
      · rw [insertSorted, if_neg hlt, if_pos heq]
        unfold exactLookup
        rw [List.find?_cons_of_pos _ (by simp)]
      · rw [insertSorted, if_neg hlt, if_neg heq]
        unfold exactLookup
        rw [List.find?_cons_of_pos _ (by simp)]

theorem exactLookup_insertSorted_of_ne {k1 k : Key} (hne : k1 ≠ k)
    (b : Bytes) (s : Store) :
    exactLookup k1 (insertSorted k b s) = exactLookup k1 s := by
  induction s with
  | nil => simp [insertSorted, exactLookup, Ne.symm hne]
  | cons e rest ih =>
    by_cases hlt : ltKey e.1 k = true
    · rw [insertSorted, if_pos hlt]
      by_cases hek : e.1 = k1
      · unfold exactLookup
        rw [List.find?_cons_of_pos _ (by simp [hek]),
          List.find?_cons_of_pos _ (by simp [hek])]
      · unfold exactLookup at ih ⊢
        rw [List.find?_cons_of_neg _ (by simp [hek]),
          List.find?_cons_of_neg _ (by simp [hek])]
        exact ih
    · by_cases heq : e.1 = k
      · rw [insertSorted, if_neg hlt, if_pos heq]
        unfold exactLookup
        rw [List.find?_cons_of_neg _ (by simp [Ne.symm hne]),
          List.find?_cons_of_neg _ (by simp [heq, Ne.symm hne])]
      · rw [insertSorted, if_neg hlt, if_neg heq]
        unfold exactLookup
        rw [List.find?_cons_of_neg _ (by simp [Ne.symm hne])]

theorem exactLookup_eraseKey_of_ne {k1 k : Key} (hne : k1 ≠ k) (s : Store) :
    exactLookup k1 (eraseKey k s) = exactLookup k1 s := by
  induction s with
  | nil => simp [eraseKey]
  | cons e rest ih =>
    by_cases heq : e.1 = k
    · rw [eraseKey, if_pos heq]
      unfold exactLookup
      rw [List.find?_cons_of_neg _ (by simp [heq, Ne.symm hne])]
    · rw [eraseKey, if_neg heq]
      by_cases hek : e.1 = k1
      · unfold exactLookup
        rw [List.find?_cons_of_pos _ (by simp [hek]),
          List.find?_cons_of_pos _ (by simp [hek])]
      · unfold exactLookup at ih ⊢
        rw [List.find?_cons_of_neg _ (by simp [hek]),
          List.find?_cons_of_neg _ (by simp [hek])]
        exact ih

theorem exactLookup_eraseKey_self {k : Key} {s : Store} (hs : Sorted s) :
    exactLookup k (eraseKey k s) = none := by
  induction s with
  | nil => simp [eraseKey, exactLookup]
  | cons e rest ih =>
    rcases sorted_cons.1 hs with ⟨hall, htail⟩
    by_cases heq : e.1 = k
    · rw [eraseKey, if_pos heq]
      unfold exactLookup
      rw [List.find?_eq_none]
      intro x hx
      have := hall x hx
      rw [heq] at this
      simp [Ne.symm (ne_of_ltKey this)]
    · rw [eraseKey, if_neg heq]
      unfold exactLookup at ih ⊢
      rw [List.find?_cons_of_neg _ (by simp [heq])]
      exact ih htail

/-- On sorted contents the seek-then-compare pattern computes exactly the
exact-match lookup. -/
theorem seekLookup_eq_exactLookup {s : Store} (k : Key) (hs : Sorted s) :
    seekLookup k s = exactLookup k s := by
  induction s with
  | nil => rfl
  | cons e rest ih =>
    rcases sorted_cons.1 hs with ⟨hall, htail⟩
    by_cases hlt : ltKey e.1 k = true
    · have hne : e.1 ≠ k := ne_of_ltKey hlt
      rw [seekLookup, seek, if_pos hlt]
      unfold exactLookup
      rw [List.find?_cons_of_neg _ (by simp [hne])]
      exact ih htail
    · rw [seekLookup, seek, if_neg hlt]
      by_cases heq : e.1 = k
      · unfold exactLookup
        rw [List.find?_cons_of_pos _ (by simp [heq])]
        simp [heq]
      · unfold exactLookup
        rw [List.find?_cons_of_neg _ (by simp [heq])]
        rw [List.find?_eq_none.2]
        · simp [heq]
        · intro x hx hxk
          have hxk1 : x.1 = k := by simpa using hxk
          have := hall x hx
          rw [hxk1] at this
          exact hlt this

/-- `Get` written through the seek-then-compare pattern. -/
theorem Get_eq_seekLookup (c : GobCodec α) (s : Store) (k : Key) (dst : Bool) :
    Get c s k dst =
      match seekLookup k s with
      | none => .error .notFound
      | some (_, b) =>
        if dst then
          match c.dec b with
          | some v => .ok (some v)
          | none => .error .decodeFail
        else .ok none := by
  unfold Get seekLookup
  cases hseek : seek k s with
  | none => rfl
  | some e =>
    rcases e with ⟨k1, b⟩
    by_cases h : k1 = k <;> simp [h]

/-- `Delete` written through the seek-then-compare pattern. -/
theorem Delete_eq_seekLookup (s : Store) (k : Key) :
    Delete s k =
      match seekLookup k s with
      | none => (s, some .notFound)
      | some _ => (eraseKey k s, none) := by
  unfold Delete seekLookup
  cases hseek : seek k s with
  | none => rfl
  | some e =>
    rcases e with ⟨k1, b⟩
    by_cases h : k1 = k <;> simp [h]

/-- Inversion of a successful `Put`: the value gob-encoded, the key was
accepted by the engine, and the new contents are the sorted insert. -/
theorem put_ok_inv {c : GobCodec α} {s s1 : Store} {k : Key} {v : α}
    (h : Put c s k (some v) = (s1, none)) :
    ∃ b, c.enc v = some b ∧ k ≠ [] ∧ s1 = insertSorted k b s := by
  cases henc : c.enc v with
  | none => simp [Put, henc] at h
  | some b =>
    by_cases hk : k = []
    · simp [Put, bucketPut, henc, hk] at h
    · refine ⟨b, rfl, hk, ?_⟩
      have hput : Put c s k (some v) = (insertSorted k b s, none) := by
        simp [Put, bucketPut, henc, hk]
      rw [hput] at h
      exact (Prod.ext_iff.1 h).1.symm

/-- Inversion of a successful `Delete`: the new contents are the erase. -/
theorem delete_ok_inv {s s1 : Store} {k : Key}
    (h : Delete s k = (s1, none)) : s1 = eraseKey k s := by
  rw [Delete_eq_seekLookup] at h
  cases hl : seekLookup k s with
  | none => rw [hl] at h; simp at h
  | some e =>
    rw [hl] at h
    exact (Prod.ext_iff.1 h).1.symm

/-- On sorted contents, an entry present in the bucket is what the
exact-match lookup returns. -/
theorem exactLookup_of_mem {s : Store} {e : Key × Bytes}
    (hs : Sorted s) (hmem : e ∈ s) : exactLookup e.1 s = some e := by
  induction s with
  | nil => simp at hmem
  | cons f rest ih =>
    rcases sorted_cons.1 hs with ⟨hall, htail⟩
    rcases List.mem_cons.1 hmem with hef | hef
    · unfold exactLookup
      rw [hef, List.find?_cons_of_pos _ (by simp)]
    · have hne : f.1 ≠ e.1 := ne_of_ltKey (hall e hef)
      unfold exactLookup at ih ⊢
      rw [List.find?_cons_of_neg _ (by simp [hne])]
      exact ih htail hef

/-- An entry the exact-match lookup returns carries the looked-up key and
is in the bucket. -/
theorem exactLookup_some_inv {s : Store} {k : Key} {e : Key × Bytes}
    (h : exactLookup k s = some e) : e.1 = k ∧ e ∈ s := by
  refine ⟨?_, List.mem_of_find?_eq_some h⟩
  have := List.find?_some h
  simpa using this

/-- Create-or-replace leaves exactly one entry for the written key. -/
theorem filter_insertSorted_self {k : Key} {b : Bytes} {s : Store}
    (hs : Sorted s) :
    (insertSorted k b s).filter (fun e => e.1 == k) = [(k, b)] := by
  induction s with
  | nil => simp [insertSorted]
  | cons e rest ih =>
    rcases sorted_cons.1 hs with ⟨hall, htail⟩
    by_cases hlt : ltKey e.1 k = true
    · have hne : e.1 ≠ k := ne_of_ltKey hlt
      rw [insertSorted, if_pos hlt, List.filter_cons_of_neg (by simp [hne])]
      exact ih htail
    · by_cases heq : e.1 = k
      · rw [insertSorted, if_neg hlt, if_pos heq,
          List.filter_cons_of_pos (by simp)]
        have hrest : rest.filter (fun x => x.1 == k) = [] := by
          rw [List.filter_eq_nil_iff]
          intro x hx hxk
          have hxk1 : x.1 = k := by simpa using hxk
          have hex := hall x hx
          rw [heq, hxk1, ltKey_irrefl] at hex
          exact Bool.false_ne_true hex
        rw [hrest]
      · rw [insertSorted, if_neg hlt, if_neg heq,
          List.filter_cons_of_pos (by simp),
          List.filter_cons_of_neg (by simp [heq])]
        have hrest : rest.filter (fun x => x.1 == k) = [] := by
          rw [List.filter_eq_nil_iff]
          intro x hx hxk
          have hxk1 : x.1 = k := by simpa using hxk
          have hex := hall x hx
          rw [hxk1] at hex
          exact hlt hex
        rw [hrest]

/-! Non-empty keys: the engine rejects the empty key, so bucket contents
only ever hold non-empty keys. -/

theorem nonEmptyKeys_insertSorted {k : Key} {b : Bytes} {s : Store}
    (hk : k ≠ []) (h : NonEmptyKeys s) : NonEmptyKeys (insertSorted k b s) := by
  intro x hx
  rcases mem_insertSorted hx with hx | hx
  · rw [hx]; exact hk
  · exact h x hx

theorem nonEmptyKeys_eraseKey {k : Key} {s : Store} (h : NonEmptyKeys s) :
    NonEmptyKeys (eraseKey k s) := fun x hx =>
  h x ((eraseKey_sublist k s).subset hx)

theorem mem_of_seek {k : Key} {s : Store} {e : Key × Bytes}
    (h : seek k s = some e) : e ∈ s := by
  induction s with
  | nil => simp [seek] at h
  | cons f rest ih =>
    rw [seek] at h
    by_cases hlt : ltKey f.1 k = true
    · rw [if_pos hlt] at h
      exact List.mem_cons_of_mem _ (ih h)
    · rw [if_neg hlt] at h
      injection h with h
      rw [← h]
      exact List.mem_cons_self f rest

/-- Seeking the empty key parks the cursor on the first entry. -/
theorem seek_empty_key (s : Store) : seek [] s = s.head? := by
  cases s with
  | nil => rfl
  | cons e rest => rw [seek, ltKey_nil_right]; rfl

theorem get_empty_key (c : GobCodec α) {s : Store} (h : NonEmptyKeys s)
    (dst : Bool) : Get c s [] dst = .error .notFound := by
  unfold Get
  cases hs : seek [] s with
  | none => rfl
  | some e =>
    rcases e with ⟨k1, b⟩
    have hne : k1 ≠ [] := h _ (mem_of_seek hs)
    simp [hne]

theorem delete_empty_key {s : Store} (h : NonEmptyKeys s) :
    Delete s [] = (s, some .notFound) := by
  unfold Delete
  cases hs : seek [] s with
  | none => rfl
  | some e =>
    rcases e with ⟨k1, b⟩
    have hne : k1 ≠ [] := h _ (mem_of_seek hs)
    simp [hne]

/-! The fixed bucket inside the backing file. -/

theorem hasBucket_setBucket (db : DB) (s : Store) :
    hasBucket (setBucket db s) = hasBucket db := by
  rcases db with ⟨bs⟩
  unfold hasBucket getBucket setBucket
  simp only []
  induction bs with
  | nil => rfl
  | cons nb rest ih =>
    by_cases hb : (nb.1 == bucketName) = true
    · have hb1 : nb.1 = bucketName := by simpa using hb
      simp [List.find?_cons, hb1]
    · simp only [List.map_cons, if_neg hb, List.find?_cons]
      simp only [Bool.not_eq_true] at hb
      simp only [hb]
      exact ih

theorem hasBucket_createBucketIfNotExists (db : DB) :
    hasBucket (createBucketIfNotExists db) = true := by
  unfold createBucketIfNotExists
  cases hget : getBucket db with
  | some s => simp [hasBucket, hget]
  | none =>
    have hfind : db.buckets.find? (fun nb => nb.1 == bucketName) = none :=
      Option.map_eq_none'.1 hget
    unfold hasBucket getBucket
    simp only []
    rw [List.find?_append, hfind]
    simp

theorem hasBucket_dbPut (c : GobCodec α) (db : DB) (k : Key) (v : Option α) :
    hasBucket (dbPut c db k v).1 = hasBucket db := by
  cases v with
  | none => simp [dbPut]
  | some v0 =>
    cases henc : c.enc v0 with
    | none => simp [dbPut, henc]
    | some b =>
      cases hget : getBucket db with
      | none => simp [dbPut, henc, hget]
      | some s =>
        by_cases hk : k = []
        · simp [dbPut, henc, hget, bucketPut, hk]
        · simp [dbPut, henc, hget, bucketPut, hk, hasBucket_setBucket]

theorem hasBucket_dbDelete (db : DB) (k : Key) :
    hasBucket (dbDelete db k).1 = hasBucket db := by
  cases hget : getBucket db with
  | none => simp [dbDelete, hget]
  | some s => simp [dbDelete, hget, hasBucket_setBucket]

/-! Every operation keeps bucket keys non-empty. -/

theorem nonEmptyKeys_put (c : GobCodec α) {s : Store} (k : Key) (v : Option α)
    (h : NonEmptyKeys s) : NonEmptyKeys (Put c s k v).1 := by
  cases v with
  | none => simpa [Put] using h
  | some v0 =>
    cases henc : c.enc v0 with
    | none => simpa [Put, henc] using h
    | some b =>
      by_cases hk : k = []
      · simpa [Put, bucketPut, henc, hk] using h
      · simpa [Put, bucketPut, henc, hk] using nonEmptyKeys_insertSorted hk h

theorem nonEmptyKeys_delete {s : Store} (k : Key) (h : NonEmptyKeys s) :
    NonEmptyKeys (Delete s k).1 := by
  cases hseek : seek k s with
  | none => simpa [Delete, hseek] using h
  | some e =>
    rcases e with ⟨k1, b⟩
    by_cases hk : k1 = k
    · subst hk
      simpa [Delete, hseek] using nonEmptyKeys_eraseKey (k := k1) h
    · simpa [Delete, hseek, hk] using h

end Kvs

open Kvs

/-- A concrete gob codec on naturals, used to evaluate the theorems below on
concrete inputs: a value `n` encodes to the one-byte sequence `[n]` and only
such singletons decode. -/
def natCodec : GobCodec Nat where
  enc n := some [n]
  dec b := match b with | [n] => some n | _ => none
  roundtrip := by intro v b h; simp at h; simp [← h]

/-- C1: on an open store whose bucket contents are sorted, a `Put(k, v)`
that succeeds followed by `Get(k, dst)` with a destination succeeds and
decodes into the destination a value decode-equal to `v` (the put/get
round-trip through the gob encoding). -/
theorem C1_put_get_roundtrip {α : Type} (c : GobCodec α) (s s1 : Store)
    (k : Key) (v : α) (hs : Sorted s)
    (hput : Put c s k (some v) = (s1, none)) :
    Get c s1 k true = .ok (some v) := by
  rcases put_ok_inv hput with ⟨b, henc, hk, hs1⟩
  have hsorted1 : Sorted s1 := hs1 ▸ sorted_insertSorted hs
  rw [Get_eq_seekLookup, seekLookup_eq_exactLookup _ hsorted1, hs1,
    exactLookup_insertSorted_self]
  simp [c.roundtrip v b henc]

/-- Witness for C1 at a concrete input: put 5 under key `[1]` into the empty
bucket, then get it back. -/
theorem C1_put_get_roundtrip_witness :
    Get natCodec [([1], [5])] [1] true = .ok (some 5) :=
  C1_put_get_roundtrip natCodec [] [([1], [5])] [1] 5 (by decide) (by decide)

/-- C2: on sorted contents, a key that is absent (never put, or removed
again) makes `Get` fail with `ErrNotFound` for every destination choice and
makes `Delete` fail with `ErrNotFound` leaving the contents unchanged; and a
successful `Delete` of `k` leaves `k` absent. -/
theorem C2_absent_key {α : Type} (c : GobCodec α) (s s1 : Store) (k : Key)
    (dst : Bool) (hs : Sorted s) :
    (exactLookup k s = none →
      Get c s k dst = .error .notFound ∧ Delete s k = (s, some .notFound)) ∧
    (Delete s k = (s1, none) → exactLookup k s1 = none) := by
  constructor
  · intro habs
    constructor
    · rw [Get_eq_seekLookup, seekLookup_eq_exactLookup _ hs, habs]
    · rw [Delete_eq_seekLookup, seekLookup_eq_exactLookup _ hs, habs]
  · intro hdel
    rw [delete_ok_inv hdel]
    exact exactLookup_eraseKey_self hs

/-- Witness for C2 at a concrete input: key `[2]` is absent from a bucket
holding only `[1]`, so `Get` and `Delete` both fail with not-found. -/
theorem C2_absent_key_witness :
    Get natCodec [([1], [5])] [2] true = .error .notFound ∧
      Delete [([1], [5])] [2] = ([([1], [5])], some .notFound) :=
  (C2_absent_key natCodec [([1], [5])] [] [2] true (by decide)).1 (by decide)

/-- C3: overwrite is last-write-wins: after two successful puts under the
same key, `Get` decodes the second value and the bucket holds exactly one
entry for that key. -/
theorem C3_last_write_wins {α : Type} (c : GobCodec α) (s s1 s2 : Store)
    (k : Key) (v1 v2 : α) (hs : Sorted s)
    (h1 : Put c s k (some v1) = (s1, none))
    (h2 : Put c s1 k (some v2) = (s2, none)) :
    Get c s2 k true = .ok (some v2) ∧
      (s2.filter (fun e => e.1 == k)).length = 1 := by
  rcases put_ok_inv h1 with ⟨b1, henc1, hk1, hs1⟩
  rcases put_ok_inv h2 with ⟨b2, henc2, hk2, hs2⟩
  have hsorted1 : Sorted s1 := hs1 ▸ sorted_insertSorted hs
  have hsorted2 : Sorted s2 := hs2 ▸ sorted_insertSorted hsorted1
  constructor
  · rw [Get_eq_seekLookup, seekLookup_eq_exactLookup _ hsorted2, hs2,
      exactLookup_insertSorted_self]
    simp [c.roundtrip v2 b2 henc2]
  · rw [hs2, filter_insertSorted_self hsorted1]
    rfl

/-- Witness for C3 at a concrete input: put 5 then 7 under key `[1]`; get
returns 7 and the entry count for `[1]` is 1. -/
theorem C3_last_write_wins_witness :
    Get natCodec [([1], [7])] [1] true = .ok (some 7) ∧
      (([([1], [7])] : Store).filter (fun e => e.1 == [1])).length = 1 :=
  C3_last_write_wins natCodec [] [([1], [5])] [([1], [7])] [1] 5 7
    (by decide) (by decide) (by decide)

/-- C4: delete removes exactly the entry for its key: after a successful
`Put(k, v)` and a successful `Delete(k)`, `Get(k)` fails with `ErrNotFound`
for every destination choice, and the delete left the entry of every other
key exactly as it was. -/
theorem C4_delete_exactly_one {α : Type} (c : GobCodec α) (s s1 s2 : Store)
    (k k1 : Key) (v : α) (dst : Bool) (hs : Sorted s) (hne : k1 ≠ k)
    (hput : Put c s k (some v) = (s1, none))
    (hdel : Delete s1 k = (s2, none)) :
    Get c s2 k dst = .error .notFound ∧
      exactLookup k1 s2 = exactLookup k1 s1 := by
  rcases put_ok_inv hput with ⟨b, henc, hk, hs1⟩
  have hsorted1 : Sorted s1 := hs1 ▸ sorted_insertSorted hs
  have hs2 : s2 = eraseKey k s1 := delete_ok_inv hdel
  have hsorted2 : Sorted s2 := hs2 ▸ sorted_eraseKey hsorted1
  constructor
  · rw [Get_eq_seekLookup, seekLookup_eq_exactLookup _ hsorted2, hs2,
      exactLookup_eraseKey_self hsorted1]
  · rw [hs2, exactLookup_eraseKey_of_ne hne]

/-- Witness for C4 at a concrete input: put then delete key `[1]` alongside
an untouched entry `[2]`; get on `[1]` fails and the `[2]` entry survives. -/
theorem C4_delete_exactly_one_witness :
    Get natCodec [([2], [9])] [1] true = .error .notFound ∧
      exactLookup [2] [([2], [9])] = exactLookup [2] [([1], [5]), ([2], [9])] :=
  C4_delete_exactly_one natCodec [([2], [9])] [([1], [5]), ([2], [9])]
    [([2], [9])] [1] [2] 5 true (by decide) (by decide) (by decide) (by decide)

/-- C5: `Put(k, nil)` fails with `ErrBadValue`, leaving the bucket contents
(and so any prior value stored under `k`) unchanged; the outcome does not
depend on the codec, because no encoding is attempted and no transaction is
opened for a nil value. -/
theorem C5_nil_value_rejected {α : Type} (c c1 : GobCodec α) (s : Store)
    (k : Key) :
    Put c s k none = (s, some .badValue) ∧ Put c s k none = Put c1 s k none :=
  ⟨rfl, rfl⟩

/-- C6 counterexample: `Open` does not honour a caller-configured timeout.
On a locked file it does not fail after a configured 100 ms window (it gives
up after its hardcoded 50 ms), so it differs from the spec-level
`openSpec(path, 100)`. -/
theorem C6_no_caller_timeout :
    Open ⟨true, ⟨[]⟩⟩ ≠ OpenResult.lockTimeout 100 ∧
      Open ⟨true, ⟨[]⟩⟩ ≠ openSpec ⟨true, ⟨[]⟩⟩ 100 := by
  constructor <;> decide

/-- C6 amended: `Open` takes no caller-supplied timeout; it always uses the
hardcoded 50 ms lock-acquisition timeout, behaving like the spec-level open
instantiated at exactly that fixed window, and on a file locked by another
process it fails with a lock-timeout error after those fixed 50 ms, with no
retry. -/
theorem C6_fixed_timeout (fs : FileState) (db : DB) :
    Open fs = openSpec fs openLockTimeoutMs ∧ openLockTimeoutMs = 50 ∧
      Open ⟨true, db⟩ = .lockTimeout 50 :=
  ⟨rfl, rfl, rfl⟩

/-- C7: on sorted bucket contents the seek-then-compare lookup that `Get`
and `Delete` share computes exactly the exact-match lookup: it returns an
entry precisely when the key is present, and otherwise the callers answer
`ErrNotFound`. -/
theorem C7_seek_is_exact_lookup (s : Store) (k : Key) (hs : Sorted s) :
    seekLookup k s = exactLookup k s ∧
      ((seekLookup k s).isSome = true ↔ ∃ b, (k, b) ∈ s) := by
  refine ⟨seekLookup_eq_exactLookup k hs, ?_⟩
  rw [seekLookup_eq_exactLookup k hs]
  constructor
  · intro hsome
    rcases Option.isSome_iff_exists.1 hsome with ⟨e, he⟩
    rcases exactLookup_some_inv he with ⟨hek, hmem⟩
    rcases e with ⟨k2, b⟩
    cases hek
    exact ⟨b, hmem⟩
  · rintro ⟨b, hmem⟩
    have h := exactLookup_of_mem hs hmem
    simp only at h
    rw [h]
    rfl

/-- Witness for C7 at a concrete input: on a two-entry sorted bucket the
seek-then-compare lookup agrees with the exact-match lookup for key `[2]`. -/
theorem C7_seek_is_exact_lookup_witness :
    seekLookup [2] [([1], [5]), ([2], [9])] =
      exactLookup [2] [([1], [5]), ([2], [9])] :=
  (C7_seek_is_exact_lookup [([1], [5]), ([2], [9])] [2] (by decide)).1

/-- C8: for a key present in the bucket, `Get` with the destination omitted
succeeds as a pure existence check, whatever the stored bytes are: it never
decodes them, so even bytes no decode could accept yield success. -/
theorem C8_existence_check {α : Type} (c : GobCodec α) (s : Store) (k : Key)
    (b : Bytes) (hs : Sorted s) (hmem : (k, b) ∈ s) :
    Get c s k false = .ok none := by
  rw [Get_eq_seekLookup, seekLookup_eq_exactLookup _ hs]
  have h := exactLookup_of_mem hs hmem
  simp only at h
  rw [h]
  simp

/-- Witness for C8 at a concrete input: the entry under key `[1]` holds the
empty byte sequence, which the codec cannot decode, yet the existence check
succeeds. -/
theorem C8_existence_check_witness :
    Get natCodec [([1], [])] [1] false = .ok none ∧ natCodec.dec [] = none :=
  ⟨C8_existence_check natCodec [([1], [])] [1] [] (by decide) (by decide), rfl⟩

/-- C9: the fixed "kvs" bucket lives as long as the store: an `Open` on an
unlocked file succeeds after creating the bucket if absent, so the bucket
exists in every opened handle, and `Put`, `Delete` and `Close` (and `Get`,
whose read-only transaction returns no new state at all) never change
whether it exists — in particular none of them ever deletes it. -/
theorem C9_bucket_lifetime {α : Type} (c : GobCodec α) (db db0 : DB)
    (k : Key) (v : Option α) :
    Open ⟨false, db0⟩ = .ok (createBucketIfNotExists db0) ∧
    hasBucket (createBucketIfNotExists db0) = true ∧
    hasBucket (dbPut c db k v).1 = hasBucket db ∧
    hasBucket (dbDelete db k).1 = hasBucket db ∧
    hasBucket (Close db) = hasBucket db :=
  ⟨rfl, hasBucket_createBucketIfNotExists db0, hasBucket_dbPut c db k v,
    hasBucket_dbDelete db k, rfl⟩

/-- C10: the engine rejects the empty key, so `Put("", v)` with a non-nil
value that encodes always fails with the engine's key-required error and
changes nothing; on any reachable contents (all stored keys non-empty, an
invariant `Put` and `Delete` preserve) `Get("")` and `Delete("")` always
fail with `ErrNotFound`. -/
theorem C10_empty_key {α : Type} (c : GobCodec α) (s : Store) (k : Key)
    (v : α) (b : Bytes) (v1 : Option α) (dst : Bool)
    (hne : NonEmptyKeys s) (henc : c.enc v = some b) :
    Put c s [] (some v) = (s, some .keyRequired) ∧
    Get c s [] dst = .error .notFound ∧
    Delete s [] = (s, some .notFound) ∧
    NonEmptyKeys (Put c s k v1).1 ∧
    NonEmptyKeys (Delete s k).1 := by
  refine ⟨?_, get_empty_key c hne dst, delete_empty_key hne,
    nonEmptyKeys_put c k v1 hne, nonEmptyKeys_delete k hne⟩
  simp [Put, bucketPut, henc]

/-- Witness for C10 at a concrete input: on a one-entry bucket, putting
under the empty key fails with the engine error, and get/delete of the
empty key answer not-found. -/
theorem C10_empty_key_witness :
    Put natCodec [([1], [5])] [] (some 7) = ([([1], [5])], some .keyRequired) ∧
    Get natCodec [([1], [5])] [] true = .error .notFound ∧
    Delete [([1], [5])] [] = ([([1], [5])], some .notFound) ∧
    NonEmptyKeys (Put natCodec [([1], [5])] [2] (some 3)).1 ∧
    NonEmptyKeys (Delete [([1], [5])] [2]).1 :=
  C10_empty_key natCodec [([1], [5])] [2] 7 [7] (some 3) true
    (by decide) rfl
